import Mathlib

/-
Verification of the core of `pyre.py`, a phonological feature-constraint
engine.  A phoneme is a Python dict from feature names to Boolean signs;
we embed such a dict as an insertion-ordered association list with
pairwise-distinct keys (a structural property of Python dicts).  The
constraint store (`constraints`) is a dict from antecedent phonemes to
consequent phonemes; we embed it as an insertion-ordered list of pairs
whose antecedents are pairwise non-equal under the Python `==` of
`Phoneme.__eq__`.
-/

set_option autoImplicit false

namespace Pyre

abbrev Feat := String

/-- Python dict lookup `d[f]` on an association list (first match; the
lists we build from dicts have distinct keys, so first = only). -/
def dlookup : List (Feat × Bool) → Feat → Option Bool
  | [], _ => none
  | (k, v) :: rest, f => if f = k then some v else dlookup rest f

/-- The value a sequence of Python dict updates leaves for key `f` when
the pairs of `e` are written in order: the last occurrence wins. -/
def lookupLast : List (Feat × Bool) → Feat → Option Bool
  | [], _ => none
  | (k, v) :: rest, f =>
    match lookupLast rest f with
    | some w => some w
    | none => if f = k then some v else none

/-- Python dict assignment `d[k] = v`: overwrite in place when the key is
present (keeping its position), append otherwise. -/
def setKey (d : List (Feat × Bool)) (k : Feat) (v : Bool) : List (Feat × Bool) :=
  if k ∈ d.map Prod.fst then
    d.map (fun p => if p.1 = k then (k, v) else p)
  else
    d ++ [(k, v)]

/-- Python `d.update(e)`: assign every pair of `e` in order. -/
def dictUpdate (d e : List (Feat × Bool)) : List (Feat × Bool) :=
  e.foldl (fun d kv => setKey d kv.1 kv.2) d

/-- `Phoneme` (pyre.py, class Phoneme): a wrapper for a dict from
features to Booleans, embedded as an association list with distinct
keys. -/
structure Phoneme where
  features : List (Feat × Bool)
  nodupKeys : (features.map Prod.fst).Nodup

theorem Phoneme.ext' : ∀ {a b : Phoneme}, a.features = b.features → a = b
  | ⟨_, _⟩, ⟨_, _⟩, rfl => rfl

instance : DecidableEq Phoneme := fun a b =>
  if h : a.features = b.features then isTrue (Phoneme.ext' h)
  else isFalse (fun hh => h (congrArg Phoneme.features hh))

/-- `Phoneme.__getitem__`: the sign of a feature, `none` if absent. -/
def pget (p : Phoneme) (f : Feat) : Option Bool :=
  dlookup p.features f

/-- `Phoneme.__le__`: subsumption.  Every feature of `a` appears in `b`
with the same sign. -/
def ple (a b : Phoneme) : Bool :=
  a.features.all (fun kv => decide (dlookup b.features kv.1 = some kv.2))

/-- `Phoneme.contradictsi`: some feature of `p` appears in the dict `fs`
with a different sign. -/
def contradictsi (p : Phoneme) (fs : List (Feat × Bool)) : Bool :=
  p.features.any (fun kv =>
    match dlookup fs kv.1 with
    | some w => decide (w ≠ kv.2)
    | none => false)

/-- `Phoneme.contradicts`. -/
def pContradicts (a b : Phoneme) : Bool :=
  contradictsi a b.features

/-- `Phoneme.__eq__`: same number of features and subsumption. -/
def peq (a b : Phoneme) : Bool :=
  decide (a.features.length = b.features.length) && ple a b

theorem setKey_map_fst (d : List (Feat × Bool)) (k : Feat) (v : Bool) :
    ((setKey d k v).map Prod.fst) =
      if k ∈ d.map Prod.fst then d.map Prod.fst
      else d.map Prod.fst ++ [k] := by
  unfold setKey
  by_cases h : k ∈ d.map Prod.fst
  · rw [if_pos h, if_pos h, List.map_map]
    apply List.map_congr_left
    intro p _
    by_cases hk : p.1 = k
    · simp [Function.comp, hk]
    · simp [Function.comp, hk]
  · rw [if_neg h, if_neg h, List.map_append]
    rfl

theorem setKey_nodupKeys {d : List (Feat × Bool)} (hd : (d.map Prod.fst).Nodup)
    (k : Feat) (v : Bool) : ((setKey d k v).map Prod.fst).Nodup := by
  rw [setKey_map_fst]
  by_cases h : k ∈ d.map Prod.fst
  · rw [if_pos h]
    exact hd
  · rw [if_neg h, List.nodup_append]
    refine ⟨hd, List.nodup_singleton k, ?_⟩
    intro a ha hb
    simp only [List.mem_singleton] at hb
    subst hb
    exact h ha

theorem dictUpdate_nodupKeys {d : List (Feat × Bool)}
    (hd : (d.map Prod.fst).Nodup) (e : List (Feat × Bool)) :
    ((dictUpdate d e).map Prod.fst).Nodup := by
  induction e generalizing d with
  | nil => exact hd
  | cons kv rest ih => exact ih (setKey_nodupKeys hd kv.1 kv.2)

/-- The dict-update step of `Phoneme.updatei`/`Phoneme.follows_constraints`
lifted to phonemes: `p.features.update(fs)`. -/
def pUpdate (p : Phoneme) (fs : List (Feat × Bool)) : Phoneme :=
  ⟨dictUpdate p.features fs, dictUpdate_nodupKeys p.nodupKeys fs⟩

/-- A rule of the constraint store: antecedent and consequent. -/
abbrev Rule := Phoneme × Phoneme

/-- The global `constraints` dict: insertion-ordered antecedent/consequent
pairs. -/
abbrev Store := List Rule

/-- `Phoneme.follows_constraints`: one pass over the store in insertion
order.  For each rule whose antecedent is subsumed by the (progressively
updated) phoneme: fail if the phoneme contradicts the consequent
(`none`, the constraint-violation diagnostic), otherwise merge the
consequent's features in.  Returns the updated phoneme on success. -/
def followsConstraints : Store → Phoneme → Option Phoneme
  | [], p => some p
  | (a, c) :: rest, p =>
    if ple a p then
      if contradictsi p c.features then none
      else followsConstraints rest (pUpdate p c.features)
    else followsConstraints rest p

/-- `Phoneme.updatei`: merge `fs` in, overwriting conflicts, then commit
only if the single-pass closure succeeds; otherwise keep `p`
unchanged. -/
def updatei (store : Store) (p : Phoneme) (fs : List (Feat × Bool)) : Phoneme :=
  match followsConstraints store (pUpdate p fs) with
  | some n => n
  | none => p

/-- `Phoneme.editi`: guarded merge.  On any conflicting sign, warn (the
inconsistent-feature-update diagnostic) and change nothing; otherwise
`updatei`. -/
def editi (store : Store) (p : Phoneme) (fs : List (Feat × Bool)) : Phoneme :=
  if contradictsi p fs then p else updatei store p fs

/-- `Phoneme.edit`. -/
def edit (store : Store) (p q : Phoneme) : Phoneme :=
  editi store p q.features

/-- Whether `Phoneme.editi` emits its inconsistent-feature-update
warning. -/
def editiWarns (p : Phoneme) (fs : List (Feat × Bool)) : Bool :=
  contradictsi p fs

-- String rendering (Phoneme.__str__)

/-- Python string comparison: lexicographic by code point. -/
def strLe : List Char → List Char → Bool
  | [], _ => true
  | _ :: _, [] => false
  | a :: as, b :: bs =>
    if a.toNat < b.toNat then true
    else if b.toNat < a.toNat then false
    else strLe as bs

def insertSorted (x : Feat) : List Feat → List Feat
  | [] => [x]
  | y :: ys => if strLe x.data y.data then x :: y :: ys else y :: insertSorted x ys

/-- Python `sorted` on feature names (insertion sort; the keys are
distinct, so stability is irrelevant). -/
def sortKeys (l : List Feat) : List Feat :=
  l.foldr insertSorted []

/-- `Phoneme.__str__`: features in alphabetical order, sign-prefixed,
space-separated, bracketed. -/
def pstr (p : Phoneme) : String :=
  let ks := sortKeys (p.features.map Prod.fst)
  let parts := ks.map (fun k =>
    (if pget p k = some true then "+" else "-") ++ k)
  "[" ++ String.intercalate " " parts ++ "]"

-- The constraint store (add_constraint)

/-- `E` dominates `N` when `E`'s antecedent is subsumed by `N`'s and
`N`'s consequent is subsumed by `E`'s: `E` fires whenever `N` would and
concludes at least as much (the generality/strength order used by
`add_constraint`). -/
def dominates (r s : Rule) : Bool :=
  ple r.1 s.1 && ple s.2 r.2

/-- A rule strictly dominates another distinct rule. -/
def strictlyDominates (r s : Rule) : Bool :=
  dominates r s && !(peq r.1 s.1 && peq r.2 s.2)

/-- The scan loop of `add_constraint` over a copy of the store: returns
`worthwhile` and the surviving entries.  An existing rule dominating the
new one makes it not worthwhile and stops the scan (entries already
deleted stay deleted, later entries are untouched); an existing rule
dominated by the new one is deleted and the scan continues. -/
def addScan : Store → Phoneme → Phoneme → Bool × Store
  | [], _, _ => (true, [])
  | (a, c) :: rest, key, value =>
    if ple a key && ple value c then (false, (a, c) :: rest)
    else if ple key a && ple c value then addScan rest key value
    else ((addScan rest key value).1, (a, c) :: (addScan rest key value).2)

/-- Python `key in constraints`: some stored antecedent equals `key`
under `Phoneme.__eq__`. -/
def storeHasKey (s : Store) (key : Phoneme) : Bool :=
  s.any (fun r => peq key r.1)

/-- `constraints[key].edit(value)`: guarded-merge `value` into the
consequent of the first entry whose antecedent equals `key`; the merge's
closure pass runs against the store `full`. -/
def editFirst (full : Store) : Store → Phoneme → Phoneme → Store
  | [], _, _ => []
  | (a, c) :: rest, key, value =>
    if peq key a then (a, editi full c value.features) :: rest
    else (a, c) :: editFirst full rest key value

/-- `add_constraint(key, value)`: reject a self-contradictory rule; scan
existing rules for redundancy/domination; then either drop the new rule,
guarded-merge into the same-antecedent entry, or append a new entry. -/
def add_constraint (store : Store) (key value : Phoneme) : Store :=
  if pContradicts key value then store
  else if (addScan store key value).1 then
    if storeHasKey (addScan store key value).2 key then
      editFirst (addScan store key value).2 (addScan store key value).2 key value
    else (addScan store key value).2 ++ [(key, value)]
  else (addScan store key value).2

/-- Whether this insertion takes the same-antecedent merge path
(`constraints[key].edit(value)`). -/
def mergePath (store : Store) (key value : Phoneme) : Bool :=
  !pContradicts key value && (addScan store key value).1 &&
    storeHasKey (addScan store key value).2 key

/-- Run a sequence of insertions in order. -/
def applyAll (s : Store) : List Rule → Store
  | [] => s
  | (k, v) :: rest => applyAll (add_constraint s k v) rest

/-- No insertion of the sequence takes the same-antecedent merge path. -/
def noMergeSeq (s : Store) : List Rule → Bool
  | [] => true
  | (k, v) :: rest =>
    !mergePath s k v && noMergeSeq (add_constraint s k v) rest

/-- Invariant (1): no stored rule's antecedent contradicts its
consequent. -/
def inv1 (s : Store) : Prop :=
  ∀ r ∈ s, pContradicts r.1 r.2 = false

/-- Invariant (2): no stored rule is strictly dominated by another
distinct stored rule. -/
def inv2 (s : Store) : Prop :=
  s.Pairwise (fun r s => strictlyDominates r s = false ∧ strictlyDominates s r = false)

/-- Neither of two rules dominates the other (the stronger pairwise
property the insertion algorithm actually maintains). -/
def noDomPair (r s : Rule) : Prop :=
  dominates r s = false ∧ dominates s r = false

-- Concrete phonemes used in the examples below.

def pheX : Phoneme := ⟨[("X", true)], by decide⟩

def pheXm : Phoneme := ⟨[("X", false)], by decide⟩

def pheY : Phoneme := ⟨[("Y", true)], by decide⟩

def pheYm : Phoneme := ⟨[("Y", false)], by decide⟩

def pheZ : Phoneme := ⟨[("Z", true)], by decide⟩

def pheW : Phoneme := ⟨[("W", true)], by decide⟩

def pheV : Phoneme := ⟨[("V", true)], by decide⟩

def pheA : Phoneme := ⟨[("A", true)], by decide⟩

def pheB : Phoneme := ⟨[("B", true)], by decide⟩

def pheXpYm : Phoneme := ⟨[("X", true), ("Y", false)], by decide⟩

def pheYpVm : Phoneme := ⟨[("Y", true), ("V", false)], by decide⟩

def pheXYZ : Phoneme := ⟨[("X", true), ("Y", true), ("Z", true)], by decide⟩

def pheYWV : Phoneme := ⟨[("Y", true), ("W", true), ("V", true)], by decide⟩

def pheVoiceNasal : Phoneme := ⟨[("voice", true), ("nasal", false)], by decide⟩

-- Lookup lemmas

theorem mem_of_dlookup {l : List (Feat × Bool)} {f : Feat} {v : Bool}
    (h : dlookup l f = some v) : (f, v) ∈ l := by
  induction l with
  | nil => simp [dlookup] at h
  | cons kv rest ih =>
    obtain ⟨k, w⟩ := kv
    rw [dlookup] at h
    by_cases hk : f = k
    · rw [if_pos hk] at h
      cases h
      subst hk
      exact List.mem_cons_self _ _
    · rw [if_neg hk] at h
      exact List.mem_cons_of_mem _ (ih h)

theorem dlookup_eq_none_of_not_mem {l : List (Feat × Bool)} {f : Feat}
    (h : f ∉ l.map Prod.fst) : dlookup l f = none := by
  induction l with
  | nil => rfl
  | cons kv rest ih =>
    rw [dlookup, if_neg, ih]
    · intro hmem
      exact h (List.mem_cons_of_mem _ hmem)
    · intro hk
      exact h (by simp [hk])

theorem dlookup_eq_some_of_mem {l : List (Feat × Bool)} {f : Feat} {v : Bool}
    (hnd : (l.map Prod.fst).Nodup) (h : (f, v) ∈ l) : dlookup l f = some v := by
  induction l with
  | nil => simp at h
  | cons kv rest ih =>
    obtain ⟨k, w⟩ := kv
    rw [List.map_cons, List.nodup_cons] at hnd
    rcases List.mem_cons.mp h with heq | hmem
    · cases heq
      rw [dlookup, if_pos rfl]
    · rw [dlookup]
      by_cases hk : f = k
      · subst hk
        exact absurd (by simpa using List.mem_map_of_mem Prod.fst hmem) hnd.1
      · rw [if_neg hk]
        exact ih hnd.2 hmem

theorem lookupLast_eq_dlookup {l : List (Feat × Bool)} {f : Feat}
    (hnd : (l.map Prod.fst).Nodup) : lookupLast l f = dlookup l f := by
  induction l with
  | nil => rfl
  | cons kv rest ih =>
    obtain ⟨k, w⟩ := kv
    rw [List.map_cons, List.nodup_cons] at hnd
    rw [lookupLast, dlookup, ih hnd.2]
    by_cases hk : f = k
    · subst hk
      rw [dlookup_eq_none_of_not_mem hnd.1]
    · cases hd : dlookup rest f <;> simp [hk, hd]

theorem dlookup_append (d e : List (Feat × Bool)) (f : Feat) :
    dlookup (d ++ e) f =
      match dlookup d f with
      | some w => some w
      | none => dlookup e f := by
  induction d with
  | nil => rfl
  | cons kv rest ih =>
    obtain ⟨k, w⟩ := kv
    rw [List.cons_append, dlookup, dlookup]
    by_cases hk : f = k
    · simp [hk]
    · simp only [if_neg hk]
      exact ih

theorem dlookup_map_replace_ne {d : List (Feat × Bool)} {f k : Feat} (v : Bool)
    (hfk : f ≠ k) :
    dlookup (d.map (fun p => if p.1 = k then (k, v) else p)) f = dlookup d f := by
  induction d with
  | nil => rfl
  | cons kv rest ih =>
    obtain ⟨k0, w⟩ := kv
    show dlookup ((if k0 = k then (k, v) else (k0, w)) ::
      rest.map (fun p => if p.1 = k then (k, v) else p)) f = dlookup ((k0, w) :: rest) f
    by_cases hk0 : k0 = k
    · rw [if_pos hk0, dlookup, dlookup, if_neg hfk, if_neg (fun h => hfk (hk0 ▸ h)), ih]
    · rw [if_neg hk0, dlookup, dlookup]
      by_cases hfk0 : f = k0
      · rw [if_pos hfk0, if_pos hfk0]
      · rw [if_neg hfk0, if_neg hfk0, ih]

theorem dlookup_map_replace_eq {d : List (Feat × Bool)} {k : Feat} (v : Bool)
    (hmem : k ∈ d.map Prod.fst) :
    dlookup (d.map (fun p => if p.1 = k then (k, v) else p)) k = some v := by
  induction d with
  | nil => simp at hmem
  | cons kv rest ih =>
    obtain ⟨k0, w⟩ := kv
    show dlookup ((if k0 = k then (k, v) else (k0, w)) ::
      rest.map (fun p => if p.1 = k then (k, v) else p)) k = some v
    by_cases hk0 : k0 = k
    · rw [if_pos hk0, dlookup, if_pos rfl]
    · have hmem2 : k ∈ rest.map Prod.fst := by
        rcases List.mem_cons.mp hmem with heq | h2
        · exact absurd heq.symm hk0
        · exact h2
      rw [if_neg hk0, dlookup, if_neg (fun h => hk0 h.symm), ih hmem2]

theorem dlookup_setKey (d : List (Feat × Bool)) (k : Feat) (v : Bool) (f : Feat) :
    dlookup (setKey d k v) f = if f = k then some v else dlookup d f := by
  unfold setKey
  by_cases hmem : k ∈ d.map Prod.fst
  · rw [if_pos hmem]
    by_cases hfk : f = k
    · subst hfk
      rw [if_pos rfl, dlookup_map_replace_eq v hmem]
    · rw [if_neg hfk, dlookup_map_replace_ne v hfk]
  · rw [if_neg hmem, dlookup_append]
    by_cases hfk : f = k
    · subst hfk
      rw [if_pos rfl, dlookup_eq_none_of_not_mem hmem]
      simp [dlookup]
    · rw [if_neg hfk]
      cases h : dlookup d f
      · simp [dlookup, hfk]
      · rfl

theorem dlookup_dictUpdate (d e : List (Feat × Bool)) (f : Feat) :
    dlookup (dictUpdate d e) f =
      match lookupLast e f with
      | some w => some w
      | none => dlookup d f := by
  induction e generalizing d with
  | nil => rfl
  | cons kv rest ih =>
    obtain ⟨k, v⟩ := kv
    show dlookup (dictUpdate (setKey d k v) rest) f = _
    rw [ih, lookupLast]
    cases hrest : lookupLast rest f
    · rw [dlookup_setKey]
      by_cases hfk : f = k
      · rw [if_pos hfk, if_pos hfk]
      · rw [if_neg hfk, if_neg hfk]
    · rfl

theorem pget_pUpdate (p : Phoneme) (e : List (Feat × Bool)) (f : Feat) :
    pget (pUpdate p e) f =
      match lookupLast e f with
      | some w => some w
      | none => pget p f :=
  dlookup_dictUpdate p.features e f

-- Characterizations of subsumption and contradiction

theorem ple_iff {a b : Phoneme} :
    ple a b = true ↔ ∀ kv ∈ a.features, dlookup b.features kv.1 = some kv.2 := by
  rw [ple, List.all_eq_true]
  constructor
  · intro h kv hm
    exact of_decide_eq_true (h kv hm)
  · intro h kv hm
    exact decide_eq_true (h kv hm)

theorem contradictsi_eq_false_iff {p : Phoneme} {fs : List (Feat × Bool)} :
    contradictsi p fs = false ↔
      ∀ kv ∈ p.features, ∀ w, dlookup fs kv.1 = some w → w = kv.2 := by
  rw [contradictsi, List.any_eq_false]
  constructor
  · intro h kv hm w hw
    have hkv := h kv hm
    rw [hw] at hkv
    simpa using hkv
  · intro h kv hm
    cases hd : dlookup fs kv.1 with
    | none => simp [hd]
    | some w =>
      simp only [hd]
      simpa using h kv hm w hd

-- The closure pass never removes or flips an existing signed feature.

theorem followsConstraints_preserves {store : Store} :
    ∀ {p q : Phoneme}, followsConstraints store p = some q →
      ∀ {f : Feat} {v : Bool}, pget p f = some v → pget q f = some v := by
  induction store with
  | nil =>
    intro p q h f v hp
    cases h
    exact hp
  | cons rule rest ih =>
    intro p q h f v hp
    obtain ⟨a, c⟩ := rule
    rw [followsConstraints] at h
    by_cases hple : ple a p = true
    · rw [if_pos hple] at h
      by_cases hcon : contradictsi p c.features = true
      · rw [if_pos hcon] at h
        cases h
      · rw [if_neg hcon] at h
        have hcon' : contradictsi p c.features = false := by
          simpa using hcon
        apply ih h
        rw [pget_pUpdate, lookupLast_eq_dlookup c.nodupKeys]
        cases hd : dlookup c.features f with
        | none => exact hp
        | some w =>
          have hm := mem_of_dlookup hp
          have hw : w = v := contradictsi_eq_false_iff.mp hcon' (f, v) hm w hd
          rw [hw]
    · rw [if_neg hple] at h
      exact ih h hp

-- Updating a phoneme with (a subset of) itself is the identity.

theorem setKey_self {d : List (Feat × Bool)} (hnd : (d.map Prod.fst).Nodup)
    {k : Feat} {v : Bool} (hmem : (k, v) ∈ d) : setKey d k v = d := by
  unfold setKey
  rw [if_pos (List.mem_map_of_mem Prod.fst hmem)]
  have hid : ∀ p ∈ d, (if p.1 = k then (k, v) else p) = p := by
    intro p hp
    obtain ⟨p1, p2⟩ := p
    by_cases hpk : p1 = k
    · subst hpk
      have h1 := dlookup_eq_some_of_mem hnd hp
      have h2 := dlookup_eq_some_of_mem hnd hmem
      rw [h1] at h2
      cases h2
      rw [if_pos rfl]
    · rw [if_neg hpk]
  rw [List.map_congr_left hid]
  simp

theorem dictUpdate_self_of_subset {d e : List (Feat × Bool)}
    (hnd : (d.map Prod.fst).Nodup) (hsub : ∀ kv ∈ e, kv ∈ d) :
    dictUpdate d e = d := by
  induction e with
  | nil => rfl
  | cons kv rest ih =>
    show dictUpdate (setKey d kv.1 kv.2) rest = d
    rw [setKey_self hnd (hsub kv (List.mem_cons_self _ _))]
    exact ih (fun kv2 h2 => hsub kv2 (List.mem_cons_of_mem _ h2))

theorem pUpdate_self (p : Phoneme) : pUpdate p p.features = p :=
  Phoneme.ext' (dictUpdate_self_of_subset p.nodupKeys (fun _ h => h))

theorem pUpdate_nil (p : Phoneme) : pUpdate p [] = p :=
  Phoneme.ext' rfl

theorem contradictsi_self (p : Phoneme) : contradictsi p p.features = false := by
  rw [contradictsi_eq_false_iff]
  intro kv hm w hw
  have := dlookup_eq_some_of_mem p.nodupKeys hm
  rw [this] at hw
  cases hw
  rfl

theorem contradictsi_nil (p : Phoneme) : contradictsi p [] = false := by
  rw [contradictsi_eq_false_iff]
  intro kv _ w hw
  cases hw

-- Subsumption is a partial order (with respect to Phoneme.__eq__).

theorem ple_refl (p : Phoneme) : ple p p = true :=
  ple_iff.mpr (fun _ hm => dlookup_eq_some_of_mem p.nodupKeys hm)

theorem ple_trans {a b c : Phoneme} (hab : ple a b = true) (hbc : ple b c = true) :
    ple a c = true := by
  rw [ple_iff] at *
  intro kv hm
  have h1 := hab kv hm
  exact hbc (kv.1, kv.2) (mem_of_dlookup h1)

theorem ple_antisymm {a b : Phoneme} (hab : ple a b = true) (hba : ple b a = true) :
    peq a b = true := by
  have hsub : ∀ {x y : Phoneme}, ple x y = true →
      x.features.map Prod.fst ⊆ y.features.map Prod.fst := by
    intro x y hxy k hk
    obtain ⟨kv, hkv, rfl⟩ := List.mem_map.mp hk
    exact List.mem_map_of_mem Prod.fst (mem_of_dlookup (ple_iff.mp hxy kv hkv))
  have hlen : a.features.length = b.features.length := by
    have h1 : (a.features.map Prod.fst).length ≤ (b.features.map Prod.fst).length :=
      (List.subperm_of_subset a.nodupKeys (hsub hab)).length_le
    have h2 : (b.features.map Prod.fst).length ≤ (a.features.map Prod.fst).length :=
      (List.subperm_of_subset b.nodupKeys (hsub hba)).length_le
    rw [List.length_map, List.length_map] at h1 h2
    exact Nat.le_antisymm h1 h2
  rw [peq, hab, decide_eq_true hlen]
  rfl

-- A rule not matched when the closure pass reaches it has no effect.

theorem followsConstraints_skip {pre post : Store} {a c : Phoneme} {p p' : Phoneme}
    (hpre : followsConstraints pre p = some p') (hna : ple a p' = false) :
    followsConstraints (pre ++ (a, c) :: post) p =
      followsConstraints (pre ++ post) p := by
  induction pre generalizing p with
  | nil =>
    cases hpre
    rw [List.nil_append, List.nil_append, followsConstraints, if_neg]
    simp [hna]
  | cons rule rest ih =>
    obtain ⟨a0, c0⟩ := rule
    rw [followsConstraints] at hpre
    rw [List.cons_append, List.cons_append, followsConstraints, followsConstraints]
    by_cases h0 : ple a0 p = true
    · rw [if_pos h0] at hpre
      rw [if_pos h0, if_pos h0]
      by_cases hc0 : contradictsi p c0.features = true
      · rw [if_pos hc0] at hpre
        cases hpre
      · rw [if_neg hc0] at hpre
        rw [if_neg hc0, if_neg hc0]
        exact ih hpre
    · rw [if_neg h0] at hpre
      rw [if_neg h0, if_neg h0]
      exact ih hpre

-- The scan loop of add_constraint only ever deletes entries, and when it
-- reports the new rule worthwhile, no survivor is comparable to it.

theorem addScan_sublist (s : Store) (key value : Phoneme) :
    List.Sublist (addScan s key value).2 s := by
  induction s with
  | nil => exact List.Sublist.refl _
  | cons r rest ih =>
    obtain ⟨a, c⟩ := r
    rw [addScan]
    by_cases h1 : (ple a key && ple value c) = true
    · rw [if_pos h1]
    · rw [if_neg h1]
      by_cases h2 : (ple key a && ple c value) = true
      · rw [if_pos h2]
        exact ih.trans (List.sublist_cons_self _ _)
      · rw [if_neg h2]
        exact ih.cons₂ _

theorem addScan_true_prop {s : Store} {key value : Phoneme} {s2 : Store}
    (h : addScan s key value = (true, s2)) :
    ∀ r ∈ s2, noDomPair r (key, value) := by
  induction s generalizing s2 with
  | nil =>
    cases h
    intro r hr
    simp at hr
  | cons e rest ih =>
    obtain ⟨a, c⟩ := e
    rw [addScan] at h
    by_cases h1 : (ple a key && ple value c) = true
    · rw [if_pos h1] at h
      cases h
    · rw [if_neg h1] at h
      by_cases h2 : (ple key a && ple c value) = true
      · rw [if_pos h2] at h
        exact ih h
      · rw [if_neg h2] at h
        injection h with hfst hsnd
        subst hsnd
        intro r hr
        rcases List.mem_cons.mp hr with rfl | hmem
        · constructor
          · simpa [dominates] using h1
          · simpa [dominates] using h2
        · have hx : addScan rest key value = (true, (addScan rest key value).2) := by
            rw [← hfst]
          exact ih hx r hmem

theorem mergePath_false_hasKey {s : Store} {key value : Phoneme}
    (hc : pContradicts key value = false)
    (hw : (addScan s key value).1 = true)
    (hmp : mergePath s key value = false) :
    storeHasKey (addScan s key value).2 key = false := by
  rw [mergePath, hc, hw] at hmp
  simpa using hmp

theorem add_constraint_preserves {s : Store} {key value : Phoneme}
    (hinv1 : inv1 s) (hinvD : s.Pairwise noDomPair)
    (hmp : mergePath s key value = false) :
    inv1 (add_constraint s key value) ∧
      (add_constraint s key value).Pairwise noDomPair := by
  rw [add_constraint]
  by_cases hc : pContradicts key value = true
  · rw [if_pos hc]
    exact ⟨hinv1, hinvD⟩
  · rw [if_neg hc]
    have hc' : pContradicts key value = false := by simpa using hc
    have hsub := addScan_sublist s key value
    have hinv1s : inv1 (addScan s key value).2 :=
      fun r hr => hinv1 r (hsub.subset hr)
    have hinvDs : (addScan s key value).2.Pairwise noDomPair :=
      hinvD.sublist hsub
    cases hw : (addScan s key value).1 with
    | false =>
      simp only [Bool.false_eq_true, if_false]
      exact ⟨hinv1s, hinvDs⟩
    | true =>
      rw [if_pos rfl]
      rw [mergePath_false_hasKey hc' hw hmp]
      simp only [Bool.false_eq_true, if_false]
      constructor
      · intro r hr
        rcases List.mem_append.mp hr with hmem | hmem
        · exact hinv1s r hmem
        · simp only [List.mem_singleton] at hmem
          subst hmem
          exact hc'
      · rw [List.pairwise_append]
        refine ⟨hinvDs, List.pairwise_singleton _ _, ?_⟩
        intro r hr x hx
        simp only [List.mem_singleton] at hx
        subst hx
        have hscan : addScan s key value = (true, (addScan s key value).2) := by
          rw [← hw]
        exact addScan_true_prop hscan r hr

theorem applyAll_inv {l : List Rule} :
    ∀ {s : Store}, inv1 s → s.Pairwise noDomPair → noMergeSeq s l = true →
      inv1 (applyAll s l) ∧ (applyAll s l).Pairwise noDomPair := by
  induction l with
  | nil =>
    intro s h1 hD _
    exact ⟨h1, hD⟩
  | cons kv rest ih =>
    intro s h1 hD hseq
    obtain ⟨k, v⟩ := kv
    rw [noMergeSeq, Bool.and_eq_true] at hseq
    have hmp : mergePath s k v = false := by
      have := hseq.1
      simpa using this
    have hstep := add_constraint_preserves h1 hD hmp
    exact ih hstep.1 hstep.2 hseq.2

theorem noDomPair_inv2 {s : Store} (h : s.Pairwise noDomPair) : inv2 s := by
  apply h.imp
  intro r s hrs
  constructor
  · rw [strictlyDominates, hrs.1]
    rfl
  · rw [strictlyDominates, hrs.2]
    rfl

-- The same-antecedent merge path replaces exactly the consequent of the
-- first entry whose antecedent equals the key.

theorem editFirst_decomp {full pre post : Store} {a c key value : Phoneme}
    (hpre : ∀ r ∈ pre, peq key r.1 = false) (ha : peq key a = true) :
    editFirst full (pre ++ (a, c) :: post) key value =
      pre ++ (a, editi full c value.features) :: post := by
  induction pre with
  | nil =>
    rw [List.nil_append, List.nil_append, editFirst, if_pos ha]
  | cons r rest ih =>
    obtain ⟨a0, c0⟩ := r
    rw [List.cons_append, List.cons_append, editFirst, if_neg]
    · rw [ih (fun r2 h2 => hpre r2 (List.mem_cons_of_mem _ h2))]
    · have h0 := hpre (a0, c0) (List.mem_cons_self _ _)
      simp [h0]

theorem storeHasKey_decomp {pre post : Store} {a c key : Phoneme}
    (ha : peq key a = true) :
    storeHasKey (pre ++ (a, c) :: post) key = true := by
  rw [storeHasKey, List.any_eq_true]
  exact ⟨(a, c), by simp, ha⟩

-- Claims

/-- C1, counterexample: the claimed invariant does not hold after every
insertion sequence.  Inserting {Y:+} => {X:-}, then {X:+} => {Y:+}, then
{X:+} => {Z:+} from the empty store ends with a stored rule whose
antecedent contradicts its consequent (the merge path's closure pass
pulls {X:-} into the consequent of the {X:+} rule), so invariant (1)
fails. -/
theorem C1_counterexample :
    (applyAll [] [(pheY, pheXm), (pheX, pheY), (pheX, pheZ)]).any
      (fun r => pContradicts r.1 r.2) = true := by
  decide

/-- C1 (amended): after every insertion sequence from the empty store in
which no insertion takes the same-antecedent merge path, the store
satisfies both invariants: no stored rule's antecedent contradicts its
consequent, and no stored rule is strictly dominated by another distinct
stored rule. -/
theorem C1_amended {l : List Rule} (h : noMergeSeq [] l = true) :
    inv1 (applyAll [] l) ∧ inv2 (applyAll [] l) := by
  have hbase :=
    applyAll_inv (l := l) (s := [])
      (fun r hr => absurd hr (List.not_mem_nil r)) List.Pairwise.nil h
  exact ⟨hbase.1, noDomPair_inv2 hbase.2⟩

/-- C1, witness for the amended theorem at a concrete two-insertion
sequence. -/
theorem C1_witness :
    inv1 (applyAll [] [(pheX, pheY), (pheA, pheB)]) ∧
      inv2 (applyAll [] [(pheX, pheY), (pheA, pheB)]) :=
  C1_amended (by decide)

/-- C2, counterexample: with the store [{X:+} => {Y:+}, {Y:+} => {Z:+}]
and target {X:+}, the second rule's antecedent is not subsumed by the
target at the start of the call, yet the rule IS triggered within the
same closure call (the pass tests each rule against the progressively
updated target), merging {Z:+} in. -/
theorem C2_counterexample :
    ple pheY pheX = false ∧
      followsConstraints [(pheX, pheY), (pheY, pheZ)] pheX = some pheXYZ ∧
      pget pheXYZ "Z" = some true := by
  decide

/-- C2 (amended): a rule whose antecedent is not subsumed by the
accumulated target at the moment the single pass reaches it (in store
iteration order) has no effect within that call; only a rule positioned
after the rule that enables it can fire in the same pass. -/
theorem C2_amended {pre post : Store} {a c p p' : Phoneme}
    (hpre : followsConstraints pre p = some p') (hna : ple a p' = false) :
    followsConstraints (pre ++ (a, c) :: post) p =
      followsConstraints (pre ++ post) p :=
  followsConstraints_skip hpre hna

/-- C2, witness: the rule {Y:+} => {Z:+} placed before its enabler has no
effect on closure-applying {X:+}. -/
theorem C2_witness :
    followsConstraints ([] ++ (pheY, pheZ) :: [(pheX, pheY)]) pheX =
      followsConstraints ([] ++ [(pheX, pheY)]) pheX :=
  C2_amended rfl (by decide)

/-- C3, counterexample: after inserting {X:+} => {Y:+} and then
{X:+} => {Y:-} from the empty store, the store holds one entry, not the
two separate coexisting entries the claim asserts. -/
theorem C3_counterexample :
    (applyAll [] [(pheX, pheY), (pheX, pheYm)]).length = 1 := by
  decide

/-- C3 (amended): the second insertion is not rejected as
self-contradictory but takes the same-antecedent merge path; the guarded
merge finds the new consequent {Y:-} contradicting the stored consequent
{Y:+}, emits the inconsistent-update warning and changes nothing, so the
store still holds exactly the single entry {X:+} => {Y:+}. -/
theorem C3_amended :
    applyAll [] [(pheX, pheY), (pheX, pheYm)] = [(pheX, pheY)] ∧
      pContradicts pheX pheYm = false ∧
      mergePath [(pheX, pheY)] pheX pheYm = true ∧
      editiWarns pheY pheYm.features = true := by
  decide

/-- C4, counterexample: with the store [{X:+} => {Y:+}], merging {X:+}
into {Y:-} by updatei does not set X to + : the closure pass rejects the
merged result, the phoneme is left unchanged, and the
constraint-violation diagnostic is emitted.  So the overwrite merge is
not unconditional and not diagnostic-free for every store state. -/
theorem C4_counterexample :
    updatei [(pheX, pheY)] pheYm pheX.features = pheYm ∧
      pget (updatei [(pheX, pheY)] pheYm pheX.features) "X" = none ∧
      followsConstraints [(pheX, pheY)] (pUpdate pheYm pheX.features) = none := by
  decide

/-- C4 (amended): updatei overwrites unconditionally only up to the
closure pass: when the single-pass closure accepts the merged result,
the result carries F's sign for every feature of F (prior conflicting
signs discarded) and no diagnostic is emitted; when the closure rejects
it, the phoneme is left unchanged (and the violation diagnostic is
emitted). -/
theorem C4_amended (store : Store) (p q : Phoneme) :
    (∀ p', followsConstraints store (pUpdate p q.features) = some p' →
      updatei store p q.features = p' ∧
        ∀ f v, dlookup q.features f = some v → pget p' f = some v) ∧
    (followsConstraints store (pUpdate p q.features) = none →
      updatei store p q.features = p) := by
  constructor
  · intro p' hp'
    refine ⟨by rw [updatei, hp'], ?_⟩
    intro f v hv
    apply followsConstraints_preserves hp'
    rw [pget_pUpdate, lookupLast_eq_dlookup q.nodupKeys, hv]
  · intro hnone
    rw [updatei, hnone]

/-- C4, witness: with the empty store, merging {Y:+} into {X:+} commits
and sets Y to +. -/
theorem C4_witness :
    updatei [] pheX pheY.features = pUpdate pheX pheY.features ∧
      pget (pUpdate pheX pheY.features) "Y" = some true :=
  ⟨((C4_amended [] pheX pheY).1 (pUpdate pheX pheY.features) rfl).1,
    ((C4_amended [] pheX pheY).1 (pUpdate pheX pheY.features) rfl).2
      "Y" true (by decide)⟩

/-- C5, counterexample: guarded-merging {X:-, Y:+} into {X:+} emits the
diagnostic but does NOT merge the non-conflicting feature Y:+ — the
whole update is dropped, contradicting the claim that the remaining
non-conflicting features still merge. -/
theorem C5_counterexample :
    editiWarns pheX [("X", false), ("Y", true)] = true ∧
      editi [] pheX [("X", false), ("Y", true)] = pheX ∧
      pget (editi [] pheX [("X", false), ("Y", true)]) "Y" = none := by
  decide

/-- C5 (amended): when any feature of the merged-in collection conflicts
with the target's current sign, the guarded merge emits the diagnostic
and drops the entire update: every conflicting feature retains its prior
sign and no non-conflicting feature is merged either. -/
theorem C5_amended (store : Store) (p : Phoneme) (fs : List (Feat × Bool))
    (h : contradictsi p fs = true) :
    editi store p fs = p ∧ editiWarns p fs = true := by
  rw [editi, if_pos h]
  exact ⟨rfl, h⟩

/-- C5, witness at a concrete conflicting merge. -/
theorem C5_witness :
    editi [] pheX [("X", false), ("Y", true)] = pheX ∧
      editiWarns pheX [("X", false), ("Y", true)] = true :=
  C5_amended [] pheX [("X", false), ("Y", true)] (by decide)

/-- C6: whenever the closure pass rejects the merged result, updatei
leaves the caller-visible phoneme unchanged; concretely, closure-applying
the set {X:+, Y:-} against the store [{X:+} => {Y:+}] reports a
constraint violation (the pass returns none) and leaves the set exactly
{X:+, Y:-}. -/
theorem C6_claim :
    (∀ (store : Store) (p : Phoneme) (fs : List (Feat × Bool)),
      followsConstraints store (pUpdate p fs) = none →
        updatei store p fs = p) ∧
    followsConstraints [(pheX, pheY)] (pUpdate pheXpYm []) = none ∧
    updatei [(pheX, pheY)] pheXpYm [] = pheXpYm := by
  refine ⟨?_, by decide, by decide⟩
  intro store p fs h
  rw [updatei, h]

/-- C6, witness for the general conjunct at the concrete scenario. -/
theorem C6_witness :
    updatei [(pheX, pheY)] pheXpYm [] = pheXpYm :=
  C6_claim.1 [(pheX, pheY)] pheXpYm [] (by decide)

/-- C7, counterexample: with the store [{X:+} => {Y:+}], guarded-merging
{X:+} with itself is NOT a no-op: the closure pass merges the implied
{Y:+} in, so the phoneme changes (both structurally and with respect to
the defined equality). -/
theorem C7_counterexample :
    edit [(pheX, pheY)] pheX pheX ≠ pheX ∧
      peq (edit [(pheX, pheY)] pheX pheX) pheX = false := by
  decide

/-- C7 (amended): with the empty constraint store (more generally,
whenever the closure adds nothing), guarded-merging a phoneme with
itself and guarded-merging it with an empty feature collection both
leave it unchanged. -/
theorem C7_amended (p : Phoneme) :
    edit [] p p = p ∧ editi [] p [] = p := by
  constructor
  · show editi [] p p.features = p
    rw [editi, contradictsi_self]
    simp only [Bool.false_eq_true, if_false]
    show (match followsConstraints [] (pUpdate p p.features) with
      | some n => n
      | none => p) = p
    rw [pUpdate_self]
    rfl
  · rw [editi, contradictsi_nil]
    simp only [Bool.false_eq_true, if_false]
    show (match followsConstraints [] (pUpdate p []) with
      | some n => n
      | none => p) = p
    rw [pUpdate_nil]
    rfl

/-- C8, counterexample: the canonical rendering is alphabetical by
feature name, so {voice:true, nasal:false} does not render as
"[+voice -nasal]". -/
theorem C8_counterexample :
    pstr pheVoiceNasal ≠ "[+voice -nasal]" := by
  decide

/-- C8 (amended): the canonical string rendering of
{voice:true, nasal:false} is exactly "[-nasal +voice]" (alphabetical,
sign-prefixed). -/
theorem C8_amended :
    pstr pheVoiceNasal = "[-nasal +voice]" := by
  decide

/-- C9: subsumption is a partial order: reflexive, transitive, and
antisymmetric with respect to the defined equality Phoneme.__eq__. -/
theorem C9_claim :
    (∀ a : Phoneme, ple a a = true) ∧
    (∀ a b c : Phoneme, ple a b = true → ple b c = true → ple a c = true) ∧
    (∀ a b : Phoneme, ple a b = true → ple b a = true → peq a b = true) :=
  ⟨ple_refl, fun _ _ _ => ple_trans, fun _ _ => ple_antisymm⟩

/-- C9, witness at concrete phonemes. -/
theorem C9_witness :
    ple pheX pheX = true ∧ ple pheX pheXYZ = true ∧ peq pheX pheX = true :=
  ⟨C9_claim.1 pheX,
    C9_claim.2.1 pheX pheX pheXYZ (by decide) (by decide),
    C9_claim.2.2 pheX pheX (by decide) (by decide)⟩

/-- C10: on the same-antecedent merge path, the stored consequent is
replaced by the guarded merge of the old consequent with the new one,
run through a single-pass closure over the current (post-scan) store —
so it may gain features implied by other matching rules — and if that
closure pass reports a violation the stored consequent is left entirely
unchanged.  The two concrete conjuncts exhibit both behaviors: merging
{W:+} into the consequent of {X:+} => {Y:+} with the unrelated rule
{W:+} => {V:+} present stores {Y:+, W:+, V:+} (gaining V:+, which is in
neither the old consequent nor the new one); with stored consequent
{Y:+, V:-} instead, the closure pass fails and the store is left
entirely unchanged. -/
theorem C10_claim :
    (∀ (store : Store) (key value : Phoneme) (pre post : Store) (a c : Phoneme),
      pContradicts key value = false →
      (addScan store key value).1 = true →
      (addScan store key value).2 = pre ++ (a, c) :: post →
      (∀ r ∈ pre, peq key r.1 = false) →
      peq key a = true →
      add_constraint store key value =
        pre ++ (a, editi (pre ++ (a, c) :: post) c value.features) :: post ∧
      (contradictsi c value.features = false →
        (∀ d, followsConstraints (pre ++ (a, c) :: post)
            (pUpdate c value.features) = some d →
          editi (pre ++ (a, c) :: post) c value.features = d) ∧
        (followsConstraints (pre ++ (a, c) :: post)
            (pUpdate c value.features) = none →
          editi (pre ++ (a, c) :: post) c value.features = c))) ∧
    add_constraint [(pheW, pheV), (pheX, pheY)] pheX pheW =
      [(pheW, pheV), (pheX, pheYWV)] ∧
    dlookup pheW.features "V" = none ∧ pget pheY "V" = none ∧
    pget pheYWV "V" = some true ∧
    add_constraint [(pheW, pheV), (pheX, pheYpVm)] pheX pheW =
      [(pheW, pheV), (pheX, pheYpVm)] := by
  refine ⟨?_, by decide, by decide, by decide, by decide, by decide⟩
  intro store key value pre post a c hc hw hdecomp hpre ha
  constructor
  · rw [add_constraint, hc]
    simp only [Bool.false_eq_true, if_false]
    rw [hw, if_pos rfl, hdecomp, storeHasKey_decomp ha, if_pos rfl,
      editFirst_decomp hpre ha]
  · intro hcon
    constructor
    · intro d hd
      rw [editi, hcon]
      simp only [Bool.false_eq_true, if_false]
      rw [updatei, hd]
    · intro hnone
      rw [editi, hcon]
      simp only [Bool.false_eq_true, if_false]
      rw [updatei, hnone]

/-- C10, witness: the general conjunct applied at the first concrete
store. -/
theorem C10_witness :
    add_constraint [(pheW, pheV), (pheX, pheY)] pheX pheW =
      [(pheW, pheV)] ++
        (pheX, editi ([(pheW, pheV)] ++ (pheX, pheY) :: []) pheY
          pheW.features) :: [] :=
  (C10_claim.1 [(pheW, pheV), (pheX, pheY)] pheX pheW [(pheW, pheV)] []
    pheX pheY (by decide) (by decide) (by decide)
    (by decide) (by decide)).1

end Pyre
